import Mathlib

/-!
Verification of the numeric conversion engine of `src/lib.js`
(`big2num`, `bigxnum2big`, `bigxnum2num`, `big2str`, `normalizeUnsignedFloat`).
Strings are modelled as `List Char`; JavaScript `BigInt` values as `Nat`
(`Int` where a sign matters); exact rational arithmetic (`Rat`) stands in for
float64 where the claim under study is about the algorithm's structure.
-/

namespace LibJs

/-- The character for a single decimal digit `d` (`d < 10`), i.e. code point `48 + d`. -/
def digitChar (d : ℕ) : Char := Char.ofNat (48 + d)

/-- Test for an ASCII decimal digit character (code points 48–57),
modelling the JavaScript character class `[0-9]`. -/
def isDigitCh (c : Char) : Prop := 48 ≤ c.toNat ∧ c.toNat ≤ 57

instance (c : Char) : Decidable (isDigitCh c) := by unfold isDigitCh; infer_instance

/-- Read a digit character back as a number, modelling `c - '0'`. -/
def charVal (c : Char) : ℕ := c.toNat - 48

/-- Accumulator pass over a most-significant-first digit list, modelling how a
decimal integer literal is read left to right. -/
def digitsValAux (acc : ℕ) : List ℕ → ℕ
  | [] => acc
  | d :: t => digitsValAux (acc * 10 + d) t

/-- The numeric value of a most-significant-first list of decimal digits. -/
def digitsVal (l : List ℕ) : ℕ := digitsValAux 0 l

/-- The numeric value of a digit string, modelling `BigInt(s)` for `s` all digits. -/
def chars2Nat (s : List Char) : ℕ := digitsVal (s.map charVal)

/-- Most-significant-first decimal digits of `n`, with explicit fuel so the kernel
can evaluate it; `natDigits` instantiates the fuel. -/
def natDigitsAux : ℕ → ℕ → List ℕ
  | 0, _ => []
  | fuel + 1, n => if n = 0 then [] else natDigitsAux fuel (n / 10) ++ [n % 10]

/-- Most-significant-first decimal digits of `n`, with `natDigits 0 = [0]`,
modelling JavaScript's `n.toString()` digit by digit. -/
def natDigits (n : ℕ) : List ℕ := if n = 0 then [0] else natDigitsAux n n

/-- The decimal digit string of `n`, modelling `n.toString()` for `n : BigInt`. -/
def natRepr (n : ℕ) : List Char := (natDigits n).map digitChar

/-- The number of decimal digits of `n` (`1` for `n = 0`), i.e. `n.toString().length`. -/
def digitLen (n : ℕ) : ℕ := (natDigits n).length

section DigitLemmas

theorem digitsValAux_eq (l : List ℕ) : ∀ acc, digitsValAux acc l = acc * 10 ^ l.length + digitsVal l := by
  induction l with
  | nil => intro acc; simp [digitsValAux, digitsVal]
  | cons d t ih =>
      intro acc
      show digitsValAux (acc * 10 + d) t = acc * 10 ^ (d :: t).length + digitsVal (d :: t)
      have h2 : digitsVal (d :: t) = d * 10 ^ t.length + digitsVal t := by
        show digitsValAux (0 * 10 + d) t = _
        rw [ih (0 * 10 + d)]; ring
      rw [ih (acc * 10 + d), h2, List.length_cons]; ring

theorem digitsVal_cons (d : ℕ) (l : List ℕ) :
    digitsVal (d :: l) = d * 10 ^ l.length + digitsVal l := by
  show digitsValAux (0 * 10 + d) l = _
  rw [digitsValAux_eq l (0 * 10 + d)]; ring

theorem digitsVal_append (l₁ l₂ : List ℕ) :
    digitsVal (l₁ ++ l₂) = digitsVal l₁ * 10 ^ l₂.length + digitsVal l₂ := by
  induction l₁ with
  | nil => simp [digitsVal, digitsValAux]
  | cons d t ih =>
      rw [List.cons_append, digitsVal_cons, digitsVal_cons, ih]
      simp only [List.length_append]
      ring

theorem digitsVal_nil : digitsVal [] = 0 := rfl

theorem digitsVal_singleton (d : ℕ) : digitsVal [d] = d := by
  rw [show [d] = d :: ([] : List ℕ) from rfl, digitsVal_cons]
  simp [digitsVal, digitsValAux]

theorem digitsVal_replicate_zero (k : ℕ) : digitsVal (List.replicate k 0) = 0 := by
  induction k with
  | zero => rfl
  | succ m ih => rw [List.replicate_succ, digitsVal_cons, ih]; simp

theorem natDigitsAux_eq (n : ℕ) : ∀ fuel, n ≤ fuel → natDigitsAux fuel n = natDigitsAux n n := by
  induction n using Nat.strong_induction_on with
  | _ n ih =>
    intro fuel hf
    by_cases hn : n = 0
    · subst hn; cases fuel <;> simp [natDigitsAux]
    · obtain ⟨m, rfl⟩ : ∃ m, n = m + 1 := ⟨n - 1, by omega⟩
      obtain ⟨f, rfl⟩ : ∃ f, fuel = f + 1 := ⟨fuel - 1, by omega⟩
      simp only [natDigitsAux, if_neg hn]
      have hq : (m + 1) / 10 < m + 1 := Nat.div_lt_self (by omega) (by norm_num)
      rw [ih ((m + 1) / 10) hq f (by omega), ih ((m + 1) / 10) hq m (by omega)]

theorem natDigitsAux_val (n : ℕ) : digitsVal (natDigitsAux n n) = n := by
  induction n using Nat.strong_induction_on with
  | _ n ih =>
    by_cases hn : n = 0
    · subst hn; rfl
    · obtain ⟨m, rfl⟩ : ∃ m, n = m + 1 := ⟨n - 1, by omega⟩
      simp only [natDigitsAux, if_neg hn]
      have hq : (m + 1) / 10 < m + 1 := Nat.div_lt_self (by omega) (by norm_num)
      rw [natDigitsAux_eq ((m + 1) / 10) m (by omega), digitsVal_append, ih _ hq,
        digitsVal_singleton, List.length_singleton, pow_one]
      omega

theorem natDigits_val (n : ℕ) : digitsVal (natDigits n) = n := by
  by_cases hn : n = 0
  · subst hn; rfl
  · simpa [natDigits, hn] using natDigitsAux_val n

theorem natDigitsAux_lt_ten (n : ℕ) : ∀ d ∈ natDigitsAux n n, d < 10 := by
  induction n using Nat.strong_induction_on with
  | _ n ih =>
    by_cases hn : n = 0
    · subst hn; intro d hd; simp [natDigitsAux] at hd
    · obtain ⟨m, rfl⟩ : ∃ m, n = m + 1 := ⟨n - 1, by omega⟩
      simp only [natDigitsAux, if_neg hn]
      intro d hd
      rw [List.mem_append] at hd
      rcases hd with hd | hd
      · have hq : (m + 1) / 10 < m + 1 := Nat.div_lt_self (by omega) (by norm_num)
        rw [natDigitsAux_eq ((m + 1) / 10) m (by omega)] at hd
        exact ih _ hq d hd
      · simp only [List.mem_singleton] at hd; subst hd; exact Nat.mod_lt _ (by norm_num)

theorem natDigits_lt_ten (n : ℕ) : ∀ d ∈ natDigits n, d < 10 := by
  by_cases hn : n = 0
  · subst hn; intro d hd; simp [natDigits] at hd; omega
  · simpa [natDigits, hn] using natDigitsAux_lt_ten n

theorem natDigitsAux_head (n : ℕ) (hn : n ≠ 0) :
    ∃ d t, natDigitsAux n n = d :: t ∧ d ≠ 0 ∧ d < 10 := by
  induction n using Nat.strong_induction_on with
  | _ n ih =>
    obtain ⟨m, rfl⟩ : ∃ m, n = m + 1 := ⟨n - 1, by omega⟩
    simp only [natDigitsAux, if_neg hn]
    by_cases hq : (m + 1) / 10 = 0
    · refine ⟨(m + 1) % 10, [], ?_, by omega, Nat.mod_lt _ (by norm_num)⟩
      rw [natDigitsAux_eq ((m + 1) / 10) m (by omega), hq]
      simp [natDigitsAux]
    · have hlt : (m + 1) / 10 < m + 1 := Nat.div_lt_self (by omega) (by norm_num)
      obtain ⟨d, t, heq, hd0, hd10⟩ := ih _ hlt hq
      refine ⟨d, t ++ [(m + 1) % 10], ?_, hd0, hd10⟩
      rw [natDigitsAux_eq ((m + 1) / 10) m (by omega), heq]
      simp

theorem natDigits_head (n : ℕ) (hn : n ≠ 0) :
    ∃ d t, natDigits n = d :: t ∧ d ≠ 0 ∧ d < 10 := by
  simpa [natDigits, hn] using natDigitsAux_head n hn

theorem natDigitsAux_length_le (n : ℕ) : ∀ k, ((natDigitsAux n n).length ≤ k ↔ n < 10 ^ k) := by
  induction n using Nat.strong_induction_on with
  | _ n ih =>
    intro k
    by_cases hn : n = 0
    · subst hn
      simp only [natDigitsAux, List.length_nil]
      have : 0 < 10 ^ k := pow_pos (by norm_num) k
      omega
    · obtain ⟨m, rfl⟩ : ∃ m, n = m + 1 := ⟨n - 1, by omega⟩
      simp only [natDigitsAux, if_neg hn]
      have hq : (m + 1) / 10 < m + 1 := Nat.div_lt_self (by omega) (by norm_num)
      rw [natDigitsAux_eq ((m + 1) / 10) m (by omega),
        List.length_append, List.length_singleton]
      cases k with
      | zero =>
          simp only [pow_zero]
          omega
      | succ k' =>
          have h1 := ih _ hq k'
          rw [Nat.div_lt_iff_lt_mul (by norm_num : (0:ℕ) < 10)] at h1
          rw [pow_succ]
          omega

theorem digitLen_le_iff (n k : ℕ) (hn : n ≠ 0) : digitLen n ≤ k ↔ n < 10 ^ k := by
  simp only [digitLen, natDigits, if_neg hn]
  exact natDigitsAux_length_le n k

theorem digitLen_zero : digitLen 0 = 1 := rfl

theorem digitLen_pos (n : ℕ) : 1 ≤ digitLen n := by
  by_cases hn : n = 0
  · subst hn; rfl
  · obtain ⟨d, t, heq, -, -⟩ := natDigits_head n hn
    simp [digitLen, heq]

theorem natDigits_length_eq (n k : ℕ) (h1 : 10 ^ k ≤ n) (h2 : n < 10 ^ (k + 1)) :
    (natDigits n).length = k + 1 := by
  have h0 : 0 < 10 ^ k := pow_pos (by norm_num) k
  have hn : n ≠ 0 := by omega
  have ha : digitLen n ≤ k + 1 := (digitLen_le_iff n (k + 1) hn).2 h2
  have hb : ¬ digitLen n ≤ k := by
    rw [digitLen_le_iff n k hn]; omega
  simp only [digitLen] at ha hb
  omega

end DigitLemmas

section CharLemmas

theorem charVal_digitChar (d : ℕ) (h : d < 10) : charVal (digitChar d) = d := by
  interval_cases d <;> decide

theorem digitChar_ne_dot (d : ℕ) (h : d < 10) : digitChar d ≠ '.' := by
  interval_cases d <;> decide

theorem isDigitCh_digitChar (d : ℕ) (h : d < 10) : isDigitCh (digitChar d) := by
  interval_cases d <;> decide

theorem toNat_digitChar (d : ℕ) (h : d < 10) : (digitChar d).toNat = 48 + d := by
  interval_cases d <;> decide

theorem chars2Nat_map_digitChar (l : List ℕ) (h : ∀ d ∈ l, d < 10) :
    chars2Nat (l.map digitChar) = digitsVal l := by
  unfold chars2Nat
  rw [List.map_map]
  congr 1
  calc l.map (charVal ∘ digitChar) = l.map id := by
        apply List.map_congr_left
        intro d hd
        exact charVal_digitChar d (h d hd)
    _ = l := List.map_id l

theorem chars2Nat_natRepr (n : ℕ) : chars2Nat (natRepr n) = n := by
  rw [natRepr, chars2Nat_map_digitChar _ (natDigits_lt_ten n), natDigits_val]

end CharLemmas

/-! ## Chunked Float Approximator: `bigxnum2num` (claims C1, C2)

`bigxnum2num` in src/lib.js slices the decimal string of `bigIntNum` from the
right into 15-character chunks, `unshift`ing each, so `chunks[idx]` with
`idx = 0` is the most significant chunk.  Slicing a decimal string from the
right in groups of 15 is arithmetized here as division and remainder by
`10^15`.  The chunk loop then adds `chunks[i] * floatNum * 10^(15*i)`.
Exact rational arithmetic stands in for float64: every operation at the
inputs studied below is exact in float64 as well. -/

/-- Number of 15-digit chunks of `n`'s decimal string (`⌈digitLen n / 15⌉`). -/
def numChunks (n : ℕ) : ℕ := (digitLen n + 14) / 15

/-- The JS `chunks[idx]` of `bigxnum2num` (index 0 = most significant chunk):
the slice of `n`'s decimal string covering digit positions
`15*(numChunks-1-idx)` to `15*(numChunks-idx)` from the right. -/
def chunkAt (n idx : ℕ) : ℕ := n / 10 ^ (15 * (numChunks n - 1 - idx)) % 10 ^ 15

/-- Shallow embedding of `bigxnum2num(bigIntNum, floatNum)` from src/lib.js:
returns 0 when either argument is zero, otherwise folds over chunk indices
`idx = 0, …, numChunks-1` accumulating `chunks[idx] * floatNum * 10^(15*idx)`
exactly as the JS loop `result += chunks[i] * floatNum * multiplier` with
`multiplier = Math.pow(10, chunkSize * i)` does. -/
def bigxnum2num (n : ℕ) (f : ℚ) : ℚ :=
  if f = 0 then 0
  else if n = 0 then 0
  else (List.range (numChunks n)).foldl
    (fun acc idx => acc + (chunkAt n idx : ℚ) * f * 10 ^ (15 * idx)) 0

/-- The value the spec's formula prescribes for `bigxnum2num`: chunk `i`
(0 = most significant) weighted by `10^(15 * (numChunks - 1 - i))`, i.e.
`Σ chunkValue * weight * factor`. -/
def specChunkSum (n : ℕ) (f : ℚ) : ℚ :=
  (List.range (numChunks n)).foldl
    (fun acc idx => acc + (chunkAt n idx : ℚ) * 10 ^ (15 * (numChunks n - 1 - idx)) * f) 0

theorem numChunks_pow15 : numChunks (10 ^ 15) = 2 := by decide

theorem chunkAt_pow15_zero : chunkAt (10 ^ 15) 0 = 1 := by decide

theorem chunkAt_pow15_one : chunkAt (10 ^ 15) 1 = 0 := by decide

theorem bigxnum2num_pow15_one : bigxnum2num (10 ^ 15) 1 = 1 := by
  simp only [bigxnum2num, if_neg (one_ne_zero (α := ℚ)),
    if_neg (by positivity : (10 : ℕ) ^ 15 ≠ 0), numChunks_pow15]
  rw [show List.range 2 = [0, 1] from rfl]
  simp only [List.foldl_cons, List.foldl_nil, chunkAt_pow15_zero, chunkAt_pow15_one]
  push_cast
  norm_num

theorem specChunkSum_pow15_one : specChunkSum (10 ^ 15) 1 = 10 ^ 15 := by
  simp only [specChunkSum, numChunks_pow15]
  rw [show List.range 2 = [0, 1] from rfl]
  simp only [List.foldl_cons, List.foldl_nil, chunkAt_pow15_zero, chunkAt_pow15_one]
  push_cast
  norm_num

/-- C1: the code's chunk loop weights chunk `idx` by `10^(15*idx)` although
`chunks[idx]` is most-significant-first, so the weights are reversed: at
`amount = 10^15`, `factor = 1` the code returns `1` while the spec's formula
`Σ chunkValue * 10^(15*(numChunks-1-i)) * factor` gives `10^15`.  (At this
input every float64 operation the code performs is exact, so the rational
model coincides with the float computation.) -/
theorem bigxnum2num_weight_reversed :
    bigxnum2num (10 ^ 15) 1 = 1 ∧ specChunkSum (10 ^ 15) 1 = 10 ^ 15 ∧
      (1 : ℚ) ≠ 10 ^ 15 := by
  refine ⟨bigxnum2num_pow15_one, specChunkSum_pow15_one, by norm_num⟩

/-- C2: at `amount = 10^15`, `factor = 1.0` (two chunks) the code's result `1`
differs from the exact value `10^15` by a relative error of `1 - 10^(-15)`,
vastly exceeding `numChunks * eps` with `eps = 2^(-52)` (float64 epsilon); the
claimed error bound fails. -/
theorem bigxnum2num_error_bound_fails :
    |bigxnum2num (10 ^ 15) 1 - (10 ^ 15 : ℚ) * 1| / |(10 ^ 15 : ℚ) * 1| >
      (numChunks (10 ^ 15) : ℚ) * (1 / 2 ^ 52) := by
  rw [bigxnum2num_pow15_one, numChunks_pow15]
  norm_num

/-! ## Coarse approximator: `big2num` (claim C9) -/

/-- Shallow embedding of `big2num(bigIntNum)` from src/lib.js: `0` for zero
input; otherwise take the absolute value's decimal string, convert it directly
when it has at most 15 digits, else take the leading 15 digits
(`str.slice(0, 15)`, i.e. `a / 10^(len-15)`) scaled by `10^(len-15)`
(`Math.pow(10, remainingDigits)`); finally negate if the input was negative.
Exact rational arithmetic stands in for float64. -/
def big2num (n : ℤ) : ℚ :=
  if n = 0 then 0
  else
    let a := n.natAbs
    let len := digitLen a
    let m : ℚ := if len ≤ 15 then (a : ℚ)
      else ((a / 10 ^ (len - 15) : ℕ) : ℚ) * 10 ^ (len - 15)
    if n < 0 then -m else m

/-- Evaluation helper: `big2num` on a 21-digit natural whose leading-15-digit
slice is `10^14` yields `10^20`. -/
theorem big2num_big_eval (m : ℕ) (hm1 : 10 ^ 20 ≤ m) (hm2 : m < 10 ^ 21)
    (hdiv : m / 10 ^ 6 = 10 ^ 14) : big2num (m : ℤ) = 10 ^ 20 := by
  have h0 : (0 : ℕ) < 10 ^ 20 := by positivity
  have hne : (m : ℤ) ≠ 0 := by exact_mod_cast (by omega : m ≠ 0)
  have hlen : digitLen m = 21 := by
    have := natDigits_length_eq m 20 hm1 hm2
    simpa [digitLen] using this
  have habs : (m : ℤ).natAbs = m := Int.natAbs_ofNat m
  simp only [big2num, if_neg hne, habs, hlen]
  rw [if_neg (by exact_mod_cast (by omega : ¬ (m : ℤ) < 0)),
    if_neg (by norm_num : ¬ (21 : ℕ) ≤ 15),
    show (21 : ℕ) - 15 = 6 from rfl, hdiv]
  push_cast
  norm_num

/-- C9: `big2num` returns 0 on zero; converts directly any integer of at most
15 decimal digits; discards digits beyond the leading 15 for longer integers
(so `big2num (10^20 + 1) = big2num (10^20)`); and preserves sign by negating
the final magnitude. -/
theorem big2num_spec :
    big2num 0 = 0 ∧
    (∀ n : ℤ, n.natAbs < 10 ^ 15 → big2num n = (n : ℚ)) ∧
    big2num (10 ^ 20 + 1) = big2num (10 ^ 20) ∧
    (∀ n : ℤ, big2num (-n) = - big2num n) := by
  refine ⟨rfl, ?_, ?_, ?_⟩
  · intro n h
    by_cases hn : n = 0
    · subst hn; simp [big2num]
    · have hna : n.natAbs ≠ 0 := fun h0 => hn (Int.natAbs_eq_zero.mp h0)
      have hlen : digitLen n.natAbs ≤ 15 := (digitLen_le_iff _ 15 hna).2 h
      simp only [big2num, if_neg hn, if_pos hlen]
      rcases lt_trichotomy n 0 with hlt | heq | hgt
      · rw [if_pos hlt]
        have h0 : (n.natAbs : ℤ) = -n := Int.ofNat_natAbs_of_nonpos hlt.le
        calc -(n.natAbs : ℚ) = -(((n.natAbs : ℤ) : ℚ)) := by rw [Int.cast_natCast]
          _ = -(((-n : ℤ) : ℚ)) := by rw [h0]
          _ = (n : ℚ) := by push_cast; ring
      · exact absurd heq hn
      · rw [if_neg (not_lt.mpr hgt.le)]
        have h0 : (n.natAbs : ℤ) = n := Int.natAbs_of_nonneg hgt.le
        calc (n.natAbs : ℚ) = (((n.natAbs : ℤ)) : ℚ) := by rw [Int.cast_natCast]
          _ = (n : ℚ) := by rw [h0]
  · have e1 : big2num ((10 ^ 20 + 1 : ℕ) : ℤ) = 10 ^ 20 :=
      big2num_big_eval (10 ^ 20 + 1) (by norm_num) (by norm_num) (by decide)
    have e2 : big2num ((10 ^ 20 : ℕ) : ℤ) = 10 ^ 20 :=
      big2num_big_eval (10 ^ 20) le_rfl (by norm_num) (by decide)
    have c1 : ((10 ^ 20 + 1 : ℕ) : ℤ) = 10 ^ 20 + 1 := by push_cast
    have c2 : ((10 ^ 20 : ℕ) : ℤ) = 10 ^ 20 := by push_cast
    rw [c1] at e1; rw [c2] at e2
    rw [e1, e2]
  · intro n
    by_cases hn : n = 0
    · subst hn; simp [big2num]
    · have hn' : -n ≠ 0 := neg_ne_zero.mpr hn
      simp only [big2num, if_neg hn, if_neg hn', Int.natAbs_neg]
      rcases lt_trichotomy n 0 with hlt | heq | hgt
      · rw [if_pos hlt, if_neg (by omega : ¬ -n < 0), neg_neg]
      · exact absurd heq hn
      · rw [if_neg (by omega : ¬ n < 0), if_pos (by omega : -n < 0)]

/-- Witness for C9: `big2num` applied at the concrete input `7`. -/
theorem big2num_spec_witness : big2num 7 = 7 :=
  big2num_spec.2.1 7 (by norm_num)

/-! ## Scaled-Integer Codec: `big2str` and the spec's `parse` (claims C3, C8) -/

/-- JavaScript's `String.prototype.padStart(n, c)`: left-pad to length `n`. -/
def padStart (s : List Char) (n : ℕ) (c : Char) : List Char :=
  List.replicate (n - s.length) c ++ s

/-- Shallow embedding of `big2str(amount, decimals)` from src/lib.js:
render the amount's digit string, `padStart(decimals, '0')`, then insert a
decimal point at `insertPosition = length - decimals`, prefixing `"0."` when
the insert position is `0`. -/
def big2str (amount : ℕ) (decimals : ℕ) : List Char :=
  let amountString := padStart (natRepr amount) decimals '0'
  let insertPosition := amountString.length - decimals
  if insertPosition = 0 then '0' :: '.' :: amountString
  else amountString.take insertPosition ++ '.' :: amountString.drop insertPosition

/-- Boolean test that a character is not the decimal point. -/
def notDot (c : Char) : Bool := decide (c ≠ '.')

/-- The part of a string before its first `'.'` (the whole string if none). -/
def intPartOf (s : List Char) : List Char := s.takeWhile notDot

/-- The part of a string from its first `'.'` on (empty if there is none). -/
def dotRest (s : List Char) : List Char := s.dropWhile notDot

/-- Modelled from the spec: the integer-part alternative `(0|[1-9][0-9]{0,8})`
of the DecimalString grammar of §3. -/
def intPartOk (l : List Char) : Prop :=
  l = ['0'] ∨
    (1 ≤ l.length ∧ l.length ≤ 9 ∧ (∀ x ∈ l, isDigitCh x) ∧ 49 ≤ l.headI.toNat)

instance (l : List Char) : Decidable (intPartOk l) := by
  unfold intPartOk; infer_instance

/-- Modelled from the spec: the DecimalString grammar
`^(0|[1-9][0-9]{0,8})(\.[0-9]{1,18})?$` of §3 (fraction, when present, has 1
to 18 digits). -/
def decimalGrammar (s : List Char) : Prop :=
  intPartOk (intPartOf s) ∧
    (dotRest s = [] ∨
      ((dotRest s).tail ≠ [] ∧ (dotRest s).tail.length ≤ 18 ∧
        ∀ x ∈ (dotRest s).tail, isDigitCh x))

instance (s : List Char) : Decidable (decimalGrammar s) := by
  unfold decimalGrammar; infer_instance

/-- Modelled from the spec: `parse(text, decimals)` of §4.2, which src/lib.js
does not provide.  Reject (as `none`) text failing the DecimalString grammar
(`InvalidFormat`); split on the decimal point (absent point means empty
fraction); reject a fraction longer than `decimals` (`PrecisionOverflow`);
right-pad the fraction with zeros to exactly `decimals` digits, concatenate
with the integer part and read as an integer. -/
def parse (s : List Char) (decimals : ℕ) : Option ℕ :=
  if decimalGrammar s then
    if decimals < (dotRest s).tail.length then none
    else some (chars2Nat (intPartOf s ++ (dotRest s).tail ++
      List.replicate (decimals - (dotRest s).tail.length) '0'))
  else none

section CodecLemmas

theorem split_at_dot (A B : List Char) (hA : ∀ c ∈ A, c ≠ '.') :
    intPartOf (A ++ '.' :: B) = A ∧ dotRest (A ++ '.' :: B) = '.' :: B := by
  induction A with
  | nil =>
      constructor
      · show List.takeWhile notDot ('.' :: B) = []
        simp [List.takeWhile_cons, notDot]
      · show List.dropWhile notDot ('.' :: B) = '.' :: B
        simp [List.dropWhile_cons, notDot]
  | cons a A' ih =>
      have ha : notDot a = true := decide_eq_true (hA a (List.mem_cons_self a A'))
      have ih' := ih (fun c hc => hA c (List.mem_cons_of_mem a hc))
      constructor
      · show List.takeWhile notDot (a :: (A' ++ '.' :: B)) = a :: A'
        rw [List.takeWhile_cons, ha]
        simp only [if_true]
        exact congrArg (List.cons a) ih'.1
      · show List.dropWhile notDot (a :: (A' ++ '.' :: B)) = '.' :: B
        rw [List.dropWhile_cons, ha]
        simp only [if_true]
        exact ih'.2

theorem split_no_dot (A : List Char) (hA : ∀ c ∈ A, c ≠ '.') :
    intPartOf A = A ∧ dotRest A = [] := by
  induction A with
  | nil => exact ⟨rfl, rfl⟩
  | cons a A' ih =>
      have ha : notDot a = true := decide_eq_true (hA a (List.mem_cons_self a A'))
      have ih' := ih (fun c hc => hA c (List.mem_cons_of_mem a hc))
      constructor
      · show List.takeWhile notDot (a :: A') = a :: A'
        rw [List.takeWhile_cons, ha]
        simp only [if_true]
        exact congrArg (List.cons a) ih'.1
      · show List.dropWhile notDot (a :: A') = []
        rw [List.dropWhile_cons, ha]
        simp only [if_true]
        exact ih'.2

theorem natRepr_digits (a : ℕ) : ∀ c ∈ natRepr a, isDigitCh c := by
  intro c hc
  obtain ⟨d, hd, rfl⟩ := List.mem_map.mp hc
  exact isDigitCh_digitChar d (natDigits_lt_ten a d hd)

theorem natRepr_no_dot (a : ℕ) : ∀ c ∈ natRepr a, c ≠ '.' := by
  intro c hc
  obtain ⟨d, hd, rfl⟩ := List.mem_map.mp hc
  exact digitChar_ne_dot d (natDigits_lt_ten a d hd)

theorem isDigitCh_zeroChar : isDigitCh '0' := by decide

theorem zeroChar_ne_dot : ('0' : Char) ≠ '.' := by decide

end CodecLemmas

theorem big2str_eq (a d : ℕ) (_hd : 1 ≤ d) :
    big2str a d =
      if (natRepr a).length ≤ d then
        '0' :: '.' :: (List.replicate (d - (natRepr a).length) '0' ++ natRepr a)
      else
        (natRepr a).take ((natRepr a).length - d) ++
          '.' :: (natRepr a).drop ((natRepr a).length - d) := by
  by_cases hle : (natRepr a).length ≤ d
  · rw [if_pos hle]
    have hplen : (padStart (natRepr a) d '0').length = d := by
      simp [padStart, List.length_append, List.length_replicate]
      omega
    simp only [big2str]
    rw [hplen, Nat.sub_self, if_pos rfl]
    rfl
  · rw [if_neg hle]
    have hpad : padStart (natRepr a) d '0' = natRepr a := by
      simp [padStart, Nat.sub_eq_zero_of_le (le_of_not_le hle)]
    simp only [big2str, hpad]
    rw [if_neg (by omega : ¬ (natRepr a).length - d = 0)]

/-- C8: `big2str` left-pads the amount's digit string with zeros to at least
`decimals` digits (pad target exactly `decimals`), inserts the decimal point
at `length - decimals`, and prefixes `"0."` exactly when that position is 0;
concretely `big2str 1234 2 = "12.34"` and `big2str 5 2 = "0.05"`. -/
theorem big2str_spec :
    big2str 1234 2 = ['1', '2', '.', '3', '4'] ∧
    big2str 5 2 = ['0', '.', '0', '5'] ∧
    ∀ a d : ℕ, 1 ≤ d →
      big2str a d =
        if (natRepr a).length ≤ d then
          '0' :: '.' :: (List.replicate (d - (natRepr a).length) '0' ++ natRepr a)
        else
          (natRepr a).take ((natRepr a).length - d) ++
            '.' :: (natRepr a).drop ((natRepr a).length - d) :=
  ⟨by decide, by decide, big2str_eq⟩

/-- Witness for C8: the general clause of `big2str_spec` at `a = 7`, `d = 3`. -/
theorem big2str_spec_witness :
    big2str 7 3 =
      if (natRepr 7).length ≤ 3 then
        '0' :: '.' :: (List.replicate (3 - (natRepr 7).length) '0' ++ natRepr 7)
      else
        (natRepr 7).take ((natRepr 7).length - 3) ++
          '.' :: (natRepr 7).drop ((natRepr 7).length - 3) :=
  big2str_spec.2.2 7 3 (by norm_num)

/-- C3 (counterexample): at `a = 0`, `d = 0` the round-trip fails: `big2str 0 0`
is `"0."`, whose bare trailing decimal point the DecimalString grammar rejects,
so `parse` returns `none`, not `some 0`. -/
theorem parse_big2str_fails_at_zero : parse (big2str 0 0) 0 ≠ some 0 := by
  decide

/-- C3 (amended): the round-trip `parse (big2str a d) d = some a` holds for all
`d` in `[1, 18]` and all amounts `a < 10^(9+d)` (so that the rendered integer
part fits the grammar's 9-digit bound; `d = 0` is excluded because `big2str`
then emits a bare trailing decimal point, which the grammar rejects). -/
theorem parse_big2str (a d : ℕ) (hd1 : 1 ≤ d) (hd18 : d ≤ 18)
    (ha : a < 10 ^ (9 + d)) : parse (big2str a d) d = some a := by
  have hdig := natRepr_digits a
  have hnd := natRepr_no_dot a
  by_cases hle : (natRepr a).length ≤ d
  · -- integer part vanishes: result is "0." ++ zero-padded digits
    set P : List Char := List.replicate (d - (natRepr a).length) '0' ++ natRepr a
      with hPdef
    have hPlen : P.length = d := by
      simp only [hPdef, List.length_append, List.length_replicate]
      omega
    have hPdig : ∀ c ∈ P, isDigitCh c := by
      intro c hc
      rcases List.mem_append.mp hc with hc | hc
      · rw [List.eq_of_mem_replicate hc]; exact isDigitCh_zeroChar
      · exact hdig c hc
    have hPnd : ∀ c ∈ P, c ≠ '.' := by
      intro c hc
      rcases List.mem_append.mp hc with hc | hc
      · rw [List.eq_of_mem_replicate hc]; exact zeroChar_ne_dot
      · exact hnd c hc
    have hb : big2str a d = ['0'] ++ '.' :: P := by
      rw [big2str_eq a d hd1, if_pos hle, hPdef]
      rfl
    obtain ⟨hip, hdr⟩ :=
      split_at_dot ['0'] P (by intro c hc; simp at hc; subst hc; exact zeroChar_ne_dot)
    have hgr : decimalGrammar (['0'] ++ '.' :: P) := by
      refine ⟨by rw [hip]; exact Or.inl rfl, Or.inr ⟨?_, ?_, ?_⟩⟩
      · rw [hdr]; simp only [List.tail_cons]
        intro h; rw [h] at hPlen; simp at hPlen; omega
      · rw [hdr]; simp only [List.tail_cons]; omega
      · rw [hdr]; simp only [List.tail_cons]; exact hPdig
    rw [hb]
    simp only [parse]
    rw [if_pos hgr, hdr, hip]
    simp only [List.tail_cons]
    rw [if_neg (by omega : ¬ d < P.length), hPlen, Nat.sub_self,
      List.replicate_zero, List.append_nil]
    congr 1
    have hcast : ('0' :: P : List Char) =
        (0 :: (List.replicate (d - (natRepr a).length) 0 ++ natDigits a)).map
          digitChar := by
      simp only [List.map_cons, List.map_append, List.map_replicate]
      rfl
    show chars2Nat ('0' :: P) = a
    rw [hcast, chars2Nat_map_digitChar]
    · rw [show (0 :: (List.replicate (d - (natRepr a).length) 0 ++ natDigits a)) =
          List.replicate (d - (natRepr a).length + 1) 0 ++ natDigits a by
        rw [List.replicate_succ]; rfl]
      rw [digitsVal_append, digitsVal_replicate_zero, natDigits_val]
      ring
    · intro x hx
      rcases List.mem_cons.mp hx with hx | hx
      · omega
      · rcases List.mem_append.mp hx with hx | hx
        · rw [List.eq_of_mem_replicate hx]; omega
        · exact natDigits_lt_ten a x hx
  · -- integer part survives: result is take (n-d) ++ "." ++ drop (n-d)
    have hn : (natRepr a).length > d := lt_of_not_le hle
    have ha0 : a ≠ 0 := by
      intro h; subst h
      have : (natRepr 0).length = 1 := rfl
      omega
    have hn9 : (natRepr a).length ≤ 9 + d := by
      have := (digitLen_le_iff a (9 + d) ha0).2 ha
      simpa [digitLen, natRepr, List.length_map] using this
    set I : List Char := (natRepr a).take ((natRepr a).length - d) with hIdef
    set F : List Char := (natRepr a).drop ((natRepr a).length - d) with hFdef
    have hIlen : I.length = (natRepr a).length - d := by
      simp only [hIdef, List.length_take]
      omega
    have hFlen : F.length = d := by
      simp only [hFdef, List.length_drop]
      omega
    have hInd : ∀ c ∈ I, c ≠ '.' := fun c hc => hnd c (List.take_subset _ _ hc)
    have hIdig : ∀ c ∈ I, isDigitCh c := fun c hc => hdig c (List.take_subset _ _ hc)
    have hFdig : ∀ c ∈ F, isDigitCh c := fun c hc => hdig c (List.drop_subset _ _ hc)
    have hb : big2str a d = I ++ '.' :: F := by
      rw [big2str_eq a d hd1, if_neg hle, hIdef, hFdef]
    obtain ⟨hip, hdr⟩ := split_at_dot I F hInd
    have hheadI : 49 ≤ I.headI.toNat := by
      obtain ⟨dd, t, hD, hdd0, hdd10⟩ := natDigits_head a ha0
      have hL : natRepr a = digitChar dd :: t.map digitChar := by
        rw [natRepr, hD, List.map_cons]
      obtain ⟨k, hk⟩ : ∃ k, (natRepr a).length - d = k + 1 :=
        ⟨(natRepr a).length - d - 1, by omega⟩
      rw [hIdef, hk, hL, List.take_succ_cons]
      show 49 ≤ (digitChar dd).toNat
      rw [toNat_digitChar dd hdd10]
      omega
    have hgr : decimalGrammar (I ++ '.' :: F) := by
      refine ⟨by rw [hip]; exact Or.inr ⟨by omega, by omega, hIdig, hheadI⟩,
        Or.inr ⟨?_, ?_, ?_⟩⟩
      · rw [hdr]; simp only [List.tail_cons]
        intro h; rw [h] at hFlen; simp at hFlen; omega
      · rw [hdr]; simp only [List.tail_cons]; omega
      · rw [hdr]; simp only [List.tail_cons]; exact hFdig
    rw [hb]
    simp only [parse]
    rw [if_pos hgr, hdr, hip]
    simp only [List.tail_cons]
    rw [if_neg (by omega : ¬ d < F.length), hFlen, Nat.sub_self,
      List.replicate_zero, List.append_nil]
    congr 1
    show chars2Nat (I ++ F) = a
    rw [hIdef, hFdef, List.take_append_drop]
    exact chars2Nat_natRepr a

/-- Witness for C3's amended round-trip: `a = 12345`, `d = 2`. -/
theorem parse_big2str_witness : parse (big2str 12345 2) 2 = some 12345 :=
  parse_big2str 12345 2 (by norm_num) (by norm_num) (by norm_num)

/-! ## Fixed-Point Multiplier: `bigxnum2big` (claim C7) -/

/-- JavaScript whitespace stripped by `String.prototype.trim` (the code points
relevant to this model). -/
def isWsCh (c : Char) : Prop :=
  c = ' ' ∨ c = '\t' ∨ c = '\n' ∨ c = '\r' ∨ c = '\x0b' ∨ c = '\x0c'

instance (c : Char) : Decidable (isWsCh c) := by unfold isWsCh; infer_instance

/-- JavaScript's `s.trim()`: strip whitespace from both ends. -/
def jsTrim (s : List Char) : List Char :=
  ((s.dropWhile fun c => decide (isWsCh c)).reverse.dropWhile
    fun c => decide (isWsCh c)).reverse

/-- JavaScript's `s.replace(/\.0*$/, '')`: remove a suffix consisting of a
decimal point followed only by zeros.  Implemented from the right: drop the
trailing zeros and, if a dot is then exposed at the end, drop it as well,
otherwise leave the string unchanged (at most one dot can be followed by only
zeros, so this is exactly the regex replacement). -/
def stripDotZeroSuffix (s : List Char) : List Char :=
  match s.reverse.dropWhile fun c => decide (c = '0') with
  | '.' :: rest => rest.reverse
  | _ => s

/-- Shallow embedding of `bigxnum2big(bigIntNum, stringNum)` from src/lib.js:
trim the factor string and strip a `".0…0"` suffix; with no decimal point,
return `BigInt(stringNum) * bigIntNum`; otherwise remove the first decimal
point, multiply, and integer-divide by `10^decimalPlaces` where
`decimalPlaces` counts the characters after the first point (BigInt `/`
truncates toward zero, i.e. `Nat.div` here as both operands are
non-negative). -/
def bigxnum2big (big : ℕ) (s : List Char) : ℕ :=
  let t := stripDotZeroSuffix (jsTrim s)
  if dotRest t = [] then chars2Nat t * big
  else chars2Nat (intPartOf t ++ (dotRest t).tail) * big / 10 ^ (dotRest t).tail.length

section MultiplierLemmas

theorem dropWhile_eq_self_of_not {p : Char → Bool} (s : List Char)
    (h : ∀ c ∈ s, p c = false) : s.dropWhile p = s := by
  cases s with
  | nil => rfl
  | cons a t =>
      rw [List.dropWhile_cons, h a (List.mem_cons_self a t)]
      simp

theorem dropWhile_replicate_append {p : Char → Bool} (k : ℕ) (a : Char)
    (l : List Char) (h : p a = true) :
    (List.replicate k a ++ l).dropWhile p = l.dropWhile p := by
  induction k with
  | zero => rfl
  | succ m ih =>
      rw [List.replicate_succ, List.cons_append]
      simp [List.dropWhile_cons, h, ih]

theorem dropWhile_append_of_cons {p : Char → Bool} (s t : List Char)
    (x : Char) (xs : List Char) (h : s.dropWhile p = x :: xs) :
    (s ++ t).dropWhile p = x :: (xs ++ t) := by
  induction s with
  | nil => simp at h
  | cons a s' ih =>
      by_cases ha : p a = true
      · rw [List.dropWhile_cons, ha] at h
        simp only [if_true] at h
        rw [List.cons_append, List.dropWhile_cons, ha]
        simpa using ih h
      · have ha' : p a = false := eq_false_of_ne_true ha
        rw [List.dropWhile_cons, ha'] at h
        simp only [Bool.false_eq_true, if_false] at h
        rw [List.cons_append, List.dropWhile_cons, ha']
        simp only [Bool.false_eq_true, if_false]
        rw [← List.cons_append, h, List.cons_append]

theorem forall_of_dropWhile_nil {p : Char → Bool} (s : List Char)
    (h : s.dropWhile p = []) : ∀ c ∈ s, p c = true := by
  induction s with
  | nil => intro c hc; simp at hc
  | cons a s' ih =>
      intro c hc
      by_cases ha : p a = true
      · rw [List.dropWhile_cons, ha] at h
        simp only [if_true] at h
        rcases List.mem_cons.mp hc with rfl | hc'
        · exact ha
        · exact ih h c hc'
      · rw [List.dropWhile_cons, eq_false_of_ne_true ha] at h
        simp at h

theorem jsTrim_eq_self (s : List Char) (h : ∀ c ∈ s, ¬ isWsCh c) : jsTrim s = s := by
  unfold jsTrim
  rw [dropWhile_eq_self_of_not s (fun c hc => decide_eq_false (h c hc)),
    dropWhile_eq_self_of_not s.reverse
      (fun c hc => decide_eq_false (h c (List.mem_reverse.mp hc))),
    List.reverse_reverse]

theorem strip_of_no_dot (s : List Char) (h : ∀ c ∈ s, c ≠ '.') :
    stripDotZeroSuffix s = s := by
  unfold stripDotZeroSuffix
  split
  · next rest heq =>
      exfalso
      have hmem : ('.' : Char) ∈ s.reverse.dropWhile fun c => decide (c = '0') := by
        rw [heq]; exact List.mem_cons_self _ _
      have : ('.' : Char) ∈ s :=
        List.mem_reverse.mp ((List.dropWhile_sublist _).subset hmem)
      exact h '.' this rfl
  · rfl

theorem strip_dot_zeros (ip fp : List Char) (hfp : ∀ c ∈ fp, c = '0') :
    stripDotZeroSuffix (ip ++ '.' :: fp) = ip := by
  have hfp' : fp = List.replicate fp.length '0' := List.eq_replicate_of_mem hfp
  have hrev : (ip ++ '.' :: fp).reverse = List.replicate fp.length '0' ++
      '.' :: ip.reverse := by
    rw [List.reverse_append, List.reverse_cons, List.append_assoc,
      List.singleton_append]
    rw [← List.reverse_replicate fp.length '0', ← hfp']
  unfold stripDotZeroSuffix
  rw [hrev, dropWhile_replicate_append fp.length '0' _ (by decide),
    List.dropWhile_cons]
  simp only [decide_eq_true_eq]
  rw [if_neg (by decide : ¬ ('.' : Char) = '0')]
  simp [List.reverse_reverse]

theorem strip_dot_nonzero (ip fp : List Char) (hex : ∃ c ∈ fp, c ≠ '0')
    (hfpd : ∀ c ∈ fp, c ≠ '.') :
    stripDotZeroSuffix (ip ++ '.' :: fp) = ip ++ '.' :: fp := by
  have hne : fp.reverse.dropWhile (fun c => decide (c = '0')) ≠ [] := by
    intro hnil
    obtain ⟨c, hc, hc0⟩ := hex
    have := forall_of_dropWhile_nil fp.reverse hnil c (List.mem_reverse.mpr hc)
    exact hc0 (of_decide_eq_true this)
  obtain ⟨x, xs, hxxs⟩ : ∃ x xs,
      fp.reverse.dropWhile (fun c => decide (c = '0')) = x :: xs := by
    cases hh : fp.reverse.dropWhile fun c => decide (c = '0') with
    | nil => exact absurd hh hne
    | cons x xs => exact ⟨x, xs, rfl⟩
  have hxfp : x ∈ fp := by
    have : x ∈ fp.reverse.dropWhile fun c => decide (c = '0') := by
      rw [hxxs]; exact List.mem_cons_self _ _
    exact List.mem_reverse.mp ((List.dropWhile_sublist _).subset this)
  have hrev : (ip ++ '.' :: fp).reverse = fp.reverse ++ '.' :: ip.reverse := by
    rw [List.reverse_append, List.reverse_cons, List.append_assoc,
      List.singleton_append]
  unfold stripDotZeroSuffix
  rw [hrev, dropWhile_append_of_cons fp.reverse ('.' :: ip.reverse) x xs hxxs]
  split
  · next rest heq =>
      exfalso
      injection heq with h1 h2
      exact hfpd x hxfp h1
  · rfl

theorem digitsVal_all_zero (l : List ℕ) (h : ∀ d ∈ l, d = 0) : digitsVal l = 0 := by
  induction l with
  | nil => rfl
  | cons d t ih =>
      rw [digitsVal_cons, h d (List.mem_cons_self d t),
        ih (fun x hx => h x (List.mem_cons_of_mem d hx))]
      simp

theorem digitChar_ne_zeroChar (d : ℕ) (h1 : d < 10) (h2 : d ≠ 0) :
    digitChar d ≠ '0' := by
  interval_cases d <;> first | omega | decide

theorem digitChar_not_ws (d : ℕ) (h : d < 10) : ¬ isWsCh (digitChar d) := by
  interval_cases d <;> decide

theorem digitChar_zero : digitChar 0 = '0' := by decide

theorem dot_not_ws : ¬ isWsCh '.' := by decide

end MultiplierLemmas

/-- C7: for a non-negative amount and a factor string with integer-part digits
`ip` and `k = fp.length ≤ 18` fractional digits, `bigxnum2big` returns exactly
`⌊amount * F / 10^k⌋` where `F` is the factor's digits with the decimal point
removed (truncating division, never rounding); in particular
`bigxnum2big 100 "0.5" = 50` and `bigxnum2big 3 "0.333333333333333333" = 0`. -/
theorem bigxnum2big_spec :
    (∀ (big : ℕ) (ip fp : List ℕ), ip ≠ [] → (∀ d ∈ ip, d < 10) →
      (∀ d ∈ fp, d < 10) → fp.length ≤ 18 →
      bigxnum2big big (ip.map digitChar ++
        (if fp = [] then [] else '.' :: fp.map digitChar)) =
        big * digitsVal (ip ++ fp) / 10 ^ fp.length) ∧
    bigxnum2big 100 ['0', '.', '5'] = 50 ∧
    bigxnum2big 3 ('0' :: '.' :: List.replicate 18 '3') = 0 := by
  refine ⟨?_, by decide, by decide⟩
  intro big ip fp _hip hip10 hfp10 hfp18
  have hipnd : ∀ c ∈ ip.map digitChar, c ≠ '.' := by
    intro c hc
    obtain ⟨d, hd, rfl⟩ := List.mem_map.mp hc
    exact digitChar_ne_dot d (hip10 d hd)
  have hfpnd : ∀ c ∈ fp.map digitChar, c ≠ '.' := by
    intro c hc
    obtain ⟨d, hd, rfl⟩ := List.mem_map.mp hc
    exact digitChar_ne_dot d (hfp10 d hd)
  by_cases hfpe : fp = []
  · subst hfpe
    rw [if_pos rfl, List.append_nil]
    have htrim : jsTrim (ip.map digitChar) = ip.map digitChar := by
      apply jsTrim_eq_self
      intro c hc
      obtain ⟨d, hd, rfl⟩ := List.mem_map.mp hc
      exact digitChar_not_ws d (hip10 d hd)
    have hstrip : stripDotZeroSuffix (ip.map digitChar) = ip.map digitChar :=
      strip_of_no_dot _ hipnd
    obtain ⟨-, hdr⟩ := split_no_dot (ip.map digitChar) hipnd
    simp only [bigxnum2big, htrim, hstrip, hdr]
    rw [if_true, chars2Nat_map_digitChar ip hip10, List.append_nil,
      List.length_nil, pow_zero, Nat.div_one, Nat.mul_comm]
  · rw [if_neg hfpe]
    have hwsall : ∀ c ∈ ip.map digitChar ++ '.' :: fp.map digitChar, ¬ isWsCh c := by
      intro c hc
      rcases List.mem_append.mp hc with hc | hc
      · obtain ⟨d, hd, rfl⟩ := List.mem_map.mp hc
        exact digitChar_not_ws d (hip10 d hd)
      · rcases List.mem_cons.mp hc with rfl | hc'
        · exact dot_not_ws
        · obtain ⟨d, hd, rfl⟩ := List.mem_map.mp hc'
          exact digitChar_not_ws d (hfp10 d hd)
    have htrim := jsTrim_eq_self _ hwsall
    by_cases hz : ∀ d ∈ fp, d = 0
    · -- all fractional digits are zero: the ".0…0" suffix is stripped
      have hfpz : ∀ c ∈ fp.map digitChar, c = '0' := by
        intro c hc
        obtain ⟨d, hd, rfl⟩ := List.mem_map.mp hc
        rw [hz d hd, digitChar_zero]
      have hstrip := strip_dot_zeros (ip.map digitChar) (fp.map digitChar) hfpz
      obtain ⟨-, hdr⟩ := split_no_dot (ip.map digitChar) hipnd
      simp only [bigxnum2big, htrim, hstrip, hdr]
      rw [if_true, chars2Nat_map_digitChar ip hip10, digitsVal_append,
        digitsVal_all_zero fp hz, Nat.add_zero, Nat.mul_comm big _,
        Nat.mul_assoc, Nat.mul_comm (10 ^ fp.length) big, ← Nat.mul_assoc,
        Nat.mul_div_cancel _ (pow_pos (by norm_num) fp.length)]
    · -- some fractional digit is non-zero: nothing is stripped
      push_neg at hz
      obtain ⟨d0, hd0, hd0z⟩ := hz
      have hex : ∃ c ∈ fp.map digitChar, c ≠ '0' :=
        ⟨digitChar d0, List.mem_map_of_mem digitChar hd0,
          digitChar_ne_zeroChar d0 (hfp10 d0 hd0) hd0z⟩
      have hstrip := strip_dot_nonzero (ip.map digitChar) (fp.map digitChar) hex hfpnd
      obtain ⟨hipf, hdr⟩ := split_at_dot (ip.map digitChar) (fp.map digitChar) hipnd
      have hne : ('.' :: fp.map digitChar : List Char) ≠ [] := by simp
      simp only [bigxnum2big, htrim, hstrip, hdr, hipf]
      rw [if_neg hne]
      simp only [List.tail_cons]
      rw [← List.map_append, chars2Nat_map_digitChar (ip ++ fp), List.length_map,
        Nat.mul_comm]
      intro x hx
      rcases List.mem_append.mp hx with hx | hx
      · exact hip10 x hx
      · exact hfp10 x hx

/-- Witness for C7: the general clause at `big = 100`, factor `"0.5"`
(`ip = [0]`, `fp = [5]`), giving `100 * 5 / 10 = 50`. -/
theorem bigxnum2big_spec_witness :
    bigxnum2big 100 ([0].map digitChar ++
      (if ([5] : List ℕ) = [] then [] else '.' :: [5].map digitChar)) =
      100 * digitsVal ([0] ++ [5]) / 10 ^ ([5] : List ℕ).length :=
  bigxnum2big_spec.1 100 [0] [5] (by decide) (by decide) (by decide) (by decide)

/-! ## Decimal-String Normalizer: `normalizeUnsignedFloat`
(claims C4, C5, C6, C10) -/

/-- The first step of `normalizeUnsignedFloat`: keep only digits and dots
(`value.replace(/[^0-9.]/g, '')`). -/
def filterDD (s : List Char) : List Char :=
  s.filter fun c => decide (isDigitCh c ∨ c = '.')

/-- The keep-only-the-first-dot step of `normalizeUnsignedFloat`
(`normalized.slice(0, firstDot + 1) +
normalized.slice(firstDot + 1).replace(/\./g, '')`; the identity when there
is no dot). -/
def keepFirstDot : List Char → List Char
  | [] => []
  | c :: cs =>
      if c = '.' then c :: cs.filter fun d => decide (d ≠ '.')
      else c :: keepFirstDot cs

/-- The cleaning stages of `normalizeUnsignedFloat` before the length limits:
filter to digits and dots, strip leading zeros (`replace(/^0+/, '')`), keep
only the first dot, and prepend `'0'` when the result starts with the dot. -/
def cleanStage (value : List Char) : List Char :=
  let n2 := (filterDD value).dropWhile fun c => decide (c = '0')
  let n3 := keepFirstDot n2
  if n3.head? = some '.' then '0' :: n3 else n3

/-- The length-limiting stage of `normalizeUnsignedFloat`, mirroring the two
sequential `if`s of the JS.  At this point the string holds at most one dot,
so `split('.')` yields exactly the part before the dot (`wholePart`) and the
part after it (`decimalPart`).  When the whole part exceeds 9 digits it is
truncated; when the decimal part exceeds 18 digits the string is rebuilt from
the ORIGINAL `wholePart` (the second assignment overwrites the first, as in
the source) with the decimal part cut to 18.  Without a dot, the string is
cut to 9 characters. -/
def truncStage (n4 : List Char) : List Char :=
  if dotRest n4 ≠ [] then
    let wp := intPartOf n4
    let dp := (dotRest n4).tail
    let r1 := if 9 < wp.length then wp.take 9 ++ '.' :: dp else n4
    if dp ≠ [] ∧ 18 < dp.length then wp ++ '.' :: dp.take 18 else r1
  else if 9 < n4.length then n4.take 9 else n4

/-- Shallow embedding of `normalizeUnsignedFloat(value)` from src/lib.js:
empty input yields empty output; if the digit-and-dot filtered string is a
non-empty run of `'0'`s (the `/^0+$/` test), collapse to `"0"`; otherwise
apply the cleaning stages and the length limits. -/
def normalizeUnsignedFloat (value : List Char) : List Char :=
  if value = [] then []
  else
    let n1 := filterDD value
    if n1 ≠ [] ∧ ∀ c ∈ n1, c = '0' then ['0']
    else truncStage (cleanStage value)

/-- C4 (counterexample): the input `"..."` — pure punctuation — does NOT
normalize to the empty string: the dots survive the character filter, the
first is kept, `'0'` is prepended, and the result is `"0."`. -/
theorem normalize_dots_not_empty : normalizeUnsignedFloat ['.', '.', '.'] ≠ [] := by
  decide

/-- C4 (amended): `normalizeUnsignedFloat` is total (it never fails on any
input); every input degrades to a best-effort form; an input with no digit
and no dot — e.g. pure punctuation without dots — normalizes to the empty
string, while a dots-only input such as `"..."` yields `"0."`. -/
theorem normalize_degrades :
    (∀ s : List Char, (∀ c ∈ s, ¬ isDigitCh c ∧ c ≠ '.') →
      normalizeUnsignedFloat s = []) ∧
    normalizeUnsignedFloat ['.', '.', '.'] = ['0', '.'] := by
  refine ⟨?_, by decide⟩
  intro s h
  have hfil : filterDD s = [] := by
    rw [filterDD, List.filter_eq_nil_iff]
    intro c hc
    have := h c hc
    simp only [decide_eq_true_eq]
    tauto
  by_cases hs : s = []
  · subst hs; rfl
  · rw [normalizeUnsignedFloat, if_neg hs]
    rw [if_neg (by rw [hfil]; simp)]
    have hclean : cleanStage s = [] := by
      rw [cleanStage, hfil]
      rfl
    rw [hclean]
    rfl

/-- Witness for C4's amended claim: the all-letters input `"ab"` normalizes to
the empty string. -/
theorem normalize_degrades_witness : normalizeUnsignedFloat ['a', 'b'] = [] :=
  normalize_degrades.1 ['a', 'b'] (by decide)

/-- C5 (counterexample): `"0.0"` — only zero digits, interspersed with a
dot — does NOT collapse to `"0"`: the `/^0+$/` test fails on the dot, and the
result is `"0.0"`. -/
theorem normalize_zero_dot_zero : normalizeUnsignedFloat ['0', '.', '0'] ≠ ['0'] := by
  decide

/-- C5 (amended): an input whose digit-and-dot filtered residue is a
non-empty run of `'0'`s with NO dots collapses to `"0"`; with dots present
the zeros are kept (e.g. `"0.0"` stays `"0.0"`). -/
theorem normalize_all_zeros :
    (∀ s : List Char, filterDD s ≠ [] → (∀ c ∈ filterDD s, c = '0') →
      normalizeUnsignedFloat s = ['0']) ∧
    normalizeUnsignedFloat ['0', '.', '0'] = ['0', '.', '0'] := by
  refine ⟨?_, by decide⟩
  intro s hne hz
  have hs : s ≠ [] := by
    intro h; subst h; exact hne rfl
  rw [normalizeUnsignedFloat, if_neg hs, if_pos ⟨hne, hz⟩]

/-- Witness for C5's amended claim: `"000"` collapses to `"0"`. -/
theorem normalize_all_zeros_witness : normalizeUnsignedFloat ['0', '0', '0'] = ['0'] :=
  normalize_all_zeros.1 ['0', '0', '0'] (by decide) (by decide)

/-- C10: `normalizeUnsignedFloat` is NOT idempotent.  On
`"1234567890.1234567890123456789"` (10 integer digits, 19 fractional digits)
the first pass truncates the fraction to 18 digits but — because the second
truncation reuses the original `wholePart` — loses the integer-part
truncation, returning a 10-digit integer part that the function's own
documentation (at most 9 digits before the point) forbids; a second pass then
shortens it further. -/
theorem normalize_not_idempotent :
    normalizeUnsignedFloat
        ['1','2','3','4','5','6','7','8','9','0','.',
         '1','2','3','4','5','6','7','8','9','0','1','2','3','4','5','6','7','8','9'] =
      ['1','2','3','4','5','6','7','8','9','0','.',
       '1','2','3','4','5','6','7','8','9','0','1','2','3','4','5','6','7','8'] ∧
    normalizeUnsignedFloat
        ['1','2','3','4','5','6','7','8','9','0','.',
         '1','2','3','4','5','6','7','8','9','0','1','2','3','4','5','6','7','8'] =
      ['1','2','3','4','5','6','7','8','9','.',
       '1','2','3','4','5','6','7','8','9','0','1','2','3','4','5','6','7','8'] ∧
    normalizeUnsignedFloat (normalizeUnsignedFloat
        ['1','2','3','4','5','6','7','8','9','0','.',
         '1','2','3','4','5','6','7','8','9','0','1','2','3','4','5','6','7','8','9']) ≠
      normalizeUnsignedFloat
        ['1','2','3','4','5','6','7','8','9','0','.',
         '1','2','3','4','5','6','7','8','9','0','1','2','3','4','5','6','7','8','9'] := by
  refine ⟨by decide, by decide, by decide⟩

/-- C6 (counterexample): the non-empty output `"5."` of the normalizer (input
`"5."`, a live-typing intermediate state) does not match the strict
DecimalString grammar, whose fraction needs at least one digit after the
point. -/
theorem normalize_output_not_strict :
    normalizeUnsignedFloat ['5', '.'] ≠ [] ∧
      ¬ decimalGrammar (normalizeUnsignedFloat ['5', '.']) := by
  refine ⟨by decide, by decide⟩

/-- Modelled from the spec: the DecimalString grammar with the fraction
relaxed to 0–18 digits, `^(0|[1-9][0-9]{0,8})(\.[0-9]{0,18})?$` — the shape
the normalizer's outputs actually take before `strictFinal` strips a bare
trailing point. -/
def decimalGrammarRelaxed (s : List Char) : Prop :=
  intPartOk (intPartOf s) ∧
    (dotRest s = [] ∨
      ((dotRest s).tail.length ≤ 18 ∧ ∀ x ∈ (dotRest s).tail, isDigitCh x))

instance (s : List Char) : Decidable (decimalGrammarRelaxed s) := by
  unfold decimalGrammarRelaxed; infer_instance

section NormalizerLemmas

theorem char_toNat_inj (c d : Char) (h : c.toNat = d.toNat) : c = d := by
  apply Char.eq_of_val_eq
  apply UInt32.eq_of_toBitVec_eq
  apply BitVec.eq_of_toNat_eq
  exact h

theorem filterDD_chars (s : List Char) :
    ∀ c ∈ filterDD s, isDigitCh c ∨ c = '.' := by
  intro c hc
  have := (List.mem_filter.mp hc).2
  exact of_decide_eq_true this

theorem dropWhile_head_not {p : Char → Bool} (l : List Char) (x : Char)
    (xs : List Char) (h : l.dropWhile p = x :: xs) : p x = false := by
  induction l with
  | nil => simp at h
  | cons a t ih =>
      rw [List.dropWhile_cons] at h
      by_cases ha : p a = true
      · rw [ha] at h; simp only [if_true] at h; exact ih h
      · have ha' : p a = false := eq_false_of_ne_true ha
        rw [ha'] at h
        simp only [Bool.false_eq_true, if_false] at h
        injection h with h1 h2
        subst h1; exact ha'

theorem keepFirstDot_no_dot (l : List Char) (h : ∀ c ∈ l, c ≠ '.') :
    keepFirstDot l = l := by
  induction l with
  | nil => rfl
  | cons a t ih =>
      rw [keepFirstDot, if_neg (h a (List.mem_cons_self a t))]
      rw [ih (fun c hc => h c (List.mem_cons_of_mem a hc))]

theorem keepFirstDot_append (A B : List Char) (hA : ∀ c ∈ A, c ≠ '.') :
    keepFirstDot (A ++ '.' :: B) =
      A ++ '.' :: B.filter fun d => decide (d ≠ '.') := by
  induction A with
  | nil => simp [keepFirstDot]
  | cons a A' ih =>
      rw [List.cons_append, keepFirstDot,
        if_neg (hA a (List.mem_cons_self a A')),
        ih (fun c hc => hA c (List.mem_cons_of_mem a hc)), List.cons_append]

theorem first_dot_split (l : List Char) :
    (∀ c ∈ l, c ≠ '.') ∨
      ∃ A B, l = A ++ '.' :: B ∧ ∀ c ∈ A, c ≠ '.' := by
  induction l with
  | nil => left; intro c hc; simp at hc
  | cons a t ih =>
      by_cases ha : a = '.'
      · right; exact ⟨[], t, by rw [ha]; rfl, by intro c hc; simp at hc⟩
      · rcases ih with hnd | ⟨A, B, rfl, hA⟩
        · left
          intro c hc
          rcases List.mem_cons.mp hc with rfl | hc'
          · exact ha
          · exact hnd c hc'
        · right
          refine ⟨a :: A, B, rfl, ?_⟩
          intro c hc
          rcases List.mem_cons.mp hc with rfl | hc'
          · exact ha
          · exact hA c hc'

/-- Characterization of `cleanStage`'s non-empty outputs: either
`"0." ++ digits` (input started with a dot after zero-stripping), or
`A ++ "." ++ digits` with `A` a non-empty digit run led by 1–9, or a plain
non-empty digit run led by 1–9. -/
theorem cleanStage_shape (s : List Char) (hcl : cleanStage s ≠ []) :
    (∃ F, cleanStage s = '0' :: '.' :: F ∧ ∀ c ∈ F, isDigitCh c) ∨
    (∃ A F, cleanStage s = A ++ '.' :: F ∧ A ≠ [] ∧ (∀ c ∈ A, isDigitCh c) ∧
      (∀ c ∈ A, c ≠ '.') ∧ 49 ≤ A.headI.toNat ∧ ∀ c ∈ F, isDigitCh c) ∨
    (cleanStage s ≠ [] ∧ (∀ c ∈ cleanStage s, isDigitCh c) ∧
      (∀ c ∈ cleanStage s, c ≠ '.') ∧ 49 ≤ (cleanStage s).headI.toNat) := by
  have h2sub : ∀ c ∈ (filterDD s).dropWhile (fun c => decide (c = '0')),
      isDigitCh c ∨ c = '.' :=
    fun c hc => filterDD_chars s c ((List.dropWhile_sublist _).subset hc)
  cases hn2 : (filterDD s).dropWhile (fun c => decide (c = '0')) with
  | nil =>
      exfalso
      apply hcl
      rw [cleanStage, hn2]
      rfl
  | cons x xs =>
      have hx0 : x ≠ '0' := by
        have := dropWhile_head_not _ x xs hn2
        exact of_decide_eq_false this
      have hxc : isDigitCh x ∨ x = '.' := by
        apply h2sub
        rw [hn2]; exact List.mem_cons_self x xs
      have hxs_sub : ∀ c ∈ x :: xs, isDigitCh c ∨ c = '.' := by
        rw [← hn2]; exact h2sub
      by_cases hxdot : x = '.'
      · -- starts with a dot: "0." is produced
        left
        subst hxdot
        refine ⟨xs.filter fun d => decide (d ≠ '.'), ?_, ?_⟩
        · rw [cleanStage, hn2]
          rw [show keepFirstDot ('.' :: xs) =
              '.' :: xs.filter (fun d => decide (d ≠ '.')) from by
            rw [keepFirstDot, if_pos rfl]]
          rw [if_pos (by rw [List.head?_cons])]
        · intro c hc
          have hcmem := List.mem_filter.mp hc
          have hcnd : c ≠ '.' := of_decide_eq_true hcmem.2
          rcases hxs_sub c (List.mem_cons_of_mem _ hcmem.1) with h | h
          · exact h
          · exact absurd h hcnd
      · -- starts with a digit 1–9
        have hxdig : isDigitCh x := by tauto
        have hx49 : 49 ≤ x.toNat := by
          rcases Nat.lt_or_ge x.toNat 49 with hlt | hge
          · exfalso
            apply hx0
            apply char_toNat_inj
            have h48 : x.toNat = 48 := by
              have := hxdig.1; omega
            rw [h48]; rfl
          · exact hge
        rcases first_dot_split (x :: xs) with hnd | ⟨A, B, hAB, hA⟩
        · -- no dot at all
          right; right
          have hcs : cleanStage s = x :: xs := by
            rw [cleanStage, hn2, keepFirstDot_no_dot _ hnd,
              if_neg (by rw [List.head?_cons]; intro h; injection h with h; exact hxdot h)]
          rw [hcs]
          refine ⟨by simp, ?_, hnd, by rw [List.headI_cons]; exact hx49⟩
          intro c hc
          rcases hxs_sub c hc with h | h
          · exact h
          · exact absurd h (hnd c hc)
        · -- a dot occurs: split at the first one
          right; left
          obtain ⟨a, A', rfl⟩ : ∃ a A', A = a :: A' := by
            cases A with
            | nil =>
                exfalso
                rw [List.nil_append] at hAB
                injection hAB with h1 h2
                exact hxdot h1
            | cons a A' => exact ⟨a, A', rfl⟩
          have hax : a = x := by
            rw [List.cons_append] at hAB
            injection hAB with h1 h2
            exact h1.symm
          subst hax
          refine ⟨a :: A', B.filter fun d => decide (d ≠ '.'), ?_, by simp, ?_, hA,
            by rw [List.headI_cons]; exact hx49, ?_⟩
          · rw [cleanStage, hn2, hAB, keepFirstDot_append _ _ hA]
            rw [if_neg ?_]
            rw [List.cons_append, List.head?_cons]
            intro h; injection h with h; exact hxdot h
          · intro c hc
            have hcA : c ∈ (a :: A' : List Char) ++ '.' :: B := by
              rw [List.mem_append]; left; exact hc
            rw [← hAB] at hcA
            rcases hxs_sub c hcA with h | h
            · exact h
            · exact absurd h (hA c hc)
          · intro c hc
            have hcmem := List.mem_filter.mp hc
            have hcnd : c ≠ '.' := of_decide_eq_true hcmem.2
            have hcB : c ∈ (a :: A' : List Char) ++ '.' :: B := by
              rw [List.mem_append]; right
              exact List.mem_cons_of_mem _ hcmem.1
            rw [← hAB] at hcB
            rcases hxs_sub c hcB with h | h
            · exact h
            · exact absurd h hcnd

theorem truncStage_nil : truncStage [] = [] := by decide

theorem grammar_of_digit_run (A : List Char) (hne : A ≠ [])
    (hdig : ∀ c ∈ A, isDigitCh c) (hnd : ∀ c ∈ A, c ≠ '.')
    (hh : 49 ≤ A.headI.toNat) (hlen : A.length ≤ 9) :
    decimalGrammarRelaxed A := by
  obtain ⟨hip, hdr⟩ := split_no_dot A hnd
  refine ⟨?_, Or.inl hdr⟩
  rw [hip]
  exact Or.inr ⟨by cases A with | nil => exact absurd rfl hne | cons a t => simp,
    hlen, hdig, hh⟩

theorem grammar_of_dot_shape (W F : List Char) (hW : intPartOk W)
    (hWnd : ∀ c ∈ W, c ≠ '.') (hF : ∀ c ∈ F, isDigitCh c)
    (hFlen : F.length ≤ 18) :
    decimalGrammarRelaxed (W ++ '.' :: F) := by
  obtain ⟨hip, hdr⟩ := split_at_dot W F hWnd
  refine ⟨by rw [hip]; exact hW, Or.inr ⟨?_, ?_⟩⟩
  · rw [hdr, List.tail_cons]; exact hFlen
  · rw [hdr, List.tail_cons]; exact hF

theorem intPartOk_zero : intPartOk ['0'] := Or.inl rfl

theorem zeroSingleton_no_dot : ∀ c ∈ (['0'] : List Char), c ≠ '.' := by decide

theorem frac_le_18 (F : List Char) (h : ¬ (F ≠ [] ∧ 18 < F.length)) :
    F.length ≤ 18 := by
  by_cases hF : F = []
  · subst hF; simp
  · push_neg at h
    exact h hF

end NormalizerLemmas

/-- C6 (amended): every non-empty output of `normalizeUnsignedFloat` matches
the relaxed grammar `^(0|[1-9][0-9]{0,8})(\.[0-9]{0,18})?$` — a trailing bare
decimal point is allowed (it is `strictFinal`'s job to strip it) — provided
the cleaned input does not have both an integer part longer than 9 and a
fraction longer than 18 digits; in that excluded case the second truncation
reuses the untruncated whole part (C10's slip) and the 9-digit bound is
violated. -/
theorem normalize_canonical (s : List Char)
    (hnb : ¬ (9 < (intPartOf (cleanStage s)).length ∧
      18 < (dotRest (cleanStage s)).tail.length))
    (hne : normalizeUnsignedFloat s ≠ []) :
    decimalGrammarRelaxed (normalizeUnsignedFloat s) := by
  by_cases hs : s = []
  · exfalso; apply hne; rw [hs]; rfl
  simp only [normalizeUnsignedFloat, if_neg hs] at hne ⊢
  by_cases hz : filterDD s ≠ [] ∧ ∀ c ∈ filterDD s, c = '0'
  · rw [if_pos hz]
    decide
  · rw [if_neg hz] at hne ⊢
    have hcl : cleanStage s ≠ [] := by
      intro h; apply hne; rw [h, truncStage_nil]
    rcases cleanStage_shape s hcl with ⟨F, hN, hF⟩ |
      ⟨A, F, hN, hAne, hAdig, hAnd, hAh, hF⟩ | ⟨-, hdig, hnd, hh⟩
    · -- output shape "0." ++ F
      rw [hN] at hnb ⊢
      show decimalGrammarRelaxed (truncStage (['0'] ++ '.' :: F))
      obtain ⟨hip, hdr⟩ := split_at_dot ['0'] F zeroSingleton_no_dot
      simp only [truncStage, hip, hdr, List.tail_cons]
      rw [if_pos (by simp : ('.' :: F : List Char) ≠ [])]
      rw [if_neg (by simp : ¬ 9 < (['0'] : List Char).length)]
      by_cases h18 : F ≠ [] ∧ 18 < F.length
      · rw [if_pos h18]
        exact grammar_of_dot_shape ['0'] (F.take 18) intPartOk_zero
          zeroSingleton_no_dot (fun c hc => hF c (List.take_subset _ _ hc))
          (by rw [List.length_take]; omega)
      · rw [if_neg h18]
        exact grammar_of_dot_shape ['0'] F intPartOk_zero
          zeroSingleton_no_dot hF (frac_le_18 F h18)
    · -- output shape A ++ "." ++ F with A a 1–9-led digit run
      rw [hN] at hnb ⊢
      obtain ⟨hip, hdr⟩ := split_at_dot A F hAnd
      rw [hip, hdr, List.tail_cons] at hnb
      simp only [truncStage, hip, hdr, List.tail_cons]
      rw [if_pos (by simp : ('.' :: F : List Char) ≠ [])]
      have hA1 : 1 ≤ A.length := by
        cases A with
        | nil => exact absurd rfl hAne
        | cons a t => simp
      by_cases h18 : F ≠ [] ∧ 18 < F.length
      · rw [if_pos h18]
        have hA9 : A.length ≤ 9 := by
          by_contra hgt
          exact hnb ⟨by omega, h18.2⟩
        exact grammar_of_dot_shape A (F.take 18)
          (Or.inr ⟨hA1, hA9, hAdig, hAh⟩) hAnd
          (fun c hc => hF c (List.take_subset _ _ hc))
          (by rw [List.length_take]; omega)
      · rw [if_neg h18]
        by_cases h9 : 9 < A.length
        · rw [if_pos h9]
          obtain ⟨a, t, rfl⟩ : ∃ a t, A = a :: t := by
            cases A with
            | nil => exact absurd rfl hAne
            | cons a t => exact ⟨a, t, rfl⟩
          rw [show (9 : ℕ) = 8 + 1 from rfl, List.take_succ_cons]
          refine grammar_of_dot_shape (a :: t.take 8) F
            (Or.inr ⟨by simp, ?_, ?_, ?_⟩) ?_ hF (frac_le_18 F h18)
          · simp only [List.length_cons, List.length_take]
            omega
          · intro c hc
            rcases List.mem_cons.mp hc with rfl | hc'
            · exact hAdig c (List.mem_cons_self _ _)
            · exact hAdig c (List.mem_cons_of_mem _ (List.take_subset _ _ hc'))
          · rw [List.headI_cons]
            rw [List.headI_cons] at hAh
            exact hAh
          · intro c hc
            rcases List.mem_cons.mp hc with rfl | hc'
            · exact hAnd c (List.mem_cons_self _ _)
            · exact hAnd c (List.mem_cons_of_mem _ (List.take_subset _ _ hc'))
        · rw [if_neg h9]
          exact grammar_of_dot_shape A F
            (Or.inr ⟨hA1, by omega, hAdig, hAh⟩) hAnd hF (frac_le_18 F h18)
    · -- output shape: a plain 1–9-led digit run, no dot
      obtain ⟨hipN, hdrN⟩ := split_no_dot (cleanStage s) hnd
      simp only [truncStage, hdrN]
      rw [if_neg (by simp)]
      obtain ⟨x, t, hxt⟩ : ∃ x t, cleanStage s = x :: t := by
        cases h : cleanStage s with
        | nil => exact absurd h hcl
        | cons x t => exact ⟨x, t, rfl⟩
      have hmem : ∀ c ∈ x :: t.take 8, c ∈ cleanStage s := by
        intro c hc
        rw [hxt]
        rcases List.mem_cons.mp hc with rfl | hc'
        · exact List.mem_cons_self _ _
        · exact List.mem_cons_of_mem _ (List.take_subset _ _ hc')
      by_cases h9 : 9 < (cleanStage s).length
      · rw [if_pos h9, hxt]
        rw [show (9 : ℕ) = 8 + 1 from rfl, List.take_succ_cons]
        refine grammar_of_digit_run (x :: t.take 8) (by simp)
          (fun c hc => hdig c (hmem c hc)) (fun c hc => hnd c (hmem c hc)) ?_ ?_
        · rw [List.headI_cons]
          rw [hxt, List.headI_cons] at hh
          exact hh
        · simp only [List.length_cons, List.length_take]
          omega
      · rw [if_neg h9]
        exact grammar_of_digit_run (cleanStage s) hcl hdig hnd hh (by omega)

/-- Witness for C6's amended claim: the output of the normalizer on `"12.34"`
matches the relaxed grammar. -/
theorem normalize_canonical_witness :
    decimalGrammarRelaxed (normalizeUnsignedFloat ['1', '2', '.', '3', '4']) :=
  normalize_canonical ['1', '2', '.', '3', '4'] (by decide) (by decide)

end LibJs
